import Mathlib

/-!
Shallow embedding of the dataset-helper scripts of the Legal-RAG-LLM-bias
repository (`dataset_helper_files/`): the Splitter (`split_dataset.py`),
the Split Validator (`validate_split.py`), the Classification Merger
(`merge_classifications.py`) and the Age Extractor (`extract_age_only.py`).

Modelling conventions:
* A JSONL line is either a successfully parsed record or a malformed line
  (`json.loads` raising `JSONDecodeError`); the parser itself is external
  to the repository, so a line is embedded as `CLine.ok c` / `CLine.bad msg`.
* Python dicts are embedded as ordered association lists with Python's
  get/set/`in` semantics (`dictGet?`, `dictSet`, `dictHasKey`).
* Python truthiness of an optional JSON string field (`if not case_id`)
  is `truthy`: `None` and the empty string are falsy.
* The `re` library is external to the repository; the output of
  `pattern.findall(fact)` for each pattern of the fixed pattern lists is
  embedded as data carried by the fact (`FactEntry.birthMatches`,
  `FactEntry.ageMatches`, one entry per pattern in priority order), while the
  scripts' own scanning, bounding and parsing logic is embedded faithfully.
-/

/-- A classification payload as consumed by the scripts: the `gender` and
`confidence` fields of the JSON object (absent fields are `none`). -/
structure Classification where
  gender : Option String
  confidence : Option String
deriving DecidableEq, Repr

/-- One entry of a record's `facts` array.  `len` is the character length of
the fact text; `birthMatches` / `ageMatches` are the `findall` results of
the three birth-year patterns resp. the three direct-age patterns of
`AgeExtractor`, in the fixed priority order of the pattern lists. -/
structure FactEntry where
  len : Nat
  birthMatches : List (List String)
  ageMatches : List (List String)
deriving DecidableEq, Repr

/-- A base-dataset record, with exactly the fields the scripts consume.
Absent JSON fields are `none`; `classification` is absent before the merge
and present after it. -/
structure Case where
  case_id : Option String
  case_no : Option String
  classification : Option Classification
  facts : List FactEntry
  judgment_date : Option String
deriving DecidableEq, Repr

/-- One line of a base-dataset JSONL file: a parsed record, or a malformed
line on which `json.loads` raises. -/
inductive CLine where
  | ok (c : Case)
  | bad (msg : String)
deriving DecidableEq, Repr

/-- Python truthiness of an optional string field: `None` and `""` are falsy. -/
def truthy : Option String → Bool
  | none => false
  | some s => s ≠ ""

/-- Python `x or d` on an optional string field: the default replaces a
falsy value. -/
def pyOr (o : Option String) (d : String) : String :=
  match o with
  | none => d
  | some s => if s = "" then d else s

/-- `enumerate(f, i)`: pair each element with its index, starting at `i`. -/
def enumFrom (i : Nat) : List α → List (Nat × α)
  | [] => []
  | x :: xs => (i, x) :: enumFrom (i + 1) xs

/-- `enumerate(f, 1)`: 1-based line numbering as used by all the scripts. -/
def enumerate1 (xs : List α) : List (Nat × α) := enumFrom 1 xs

/-- Lexicographic (code-point) strict order on character lists — Python's
string `<`. -/
def listLt : List Char → List Char → Bool
  | [], [] => false
  | [], _ :: _ => true
  | _ :: _, [] => false
  | a :: as, b :: bs =>
    if a.toNat < b.toNat then true
    else if b.toNat < a.toNat then false
    else listLt as bs

/-- Python string `a <= b` (code-point lexicographic). -/
def strLeB (a b : String) : Bool := !(listLt b.data a.data)

/-- Python `s.endswith(suf)`. -/
def strEndsWith (s suf : String) : Bool :=
  s.data.drop (s.data.length - suf.data.length) == suf.data

/-- Python `s.startswith(pre)`. -/
def strStartsWith (s pre : String) : Bool :=
  s.data.take pre.data.length == pre.data

/-! ## Splitter (`split_dataset.py`, `split_jsonl`) -/

/-- Python `f"{n:02d}"`: decimal rendering zero-padded to width 2. -/
def pad2 (n : Nat) : String :=
  if n < 10 then "0" ++ toString n else toString n

/-- The chunk filename `f"train_split_{i+1:02d}.jsonl"` for 1-based index `k`. -/
def chunkName (k : Nat) : String :=
  "train_split_" ++ pad2 k ++ ".jsonl"

/-- The slice `lines[start_idx:end_idx]` of loop iteration `i` of
`split_jsonl`, with `lines_per_file = total_lines // num_splits`,
`start_idx = i * lines_per_file`, and `end_idx = total_lines` for the last
chunk (`i == num_splits - 1`), else `(i + 1) * lines_per_file`. -/
def chunkOf (lines : List CLine) (n i : Nat) : List CLine :=
  let lpf := lines.length / n
  let e := if i = n - 1 then lines.length else (i + 1) * lpf
  (lines.drop (i * lpf)).take (e - i * lpf)

/-- One iteration of the `for i in range(num_splits)` loop of `split_jsonl`:
slice the chunk `lines[start_idx:end_idx]`, write it to its file, then
evaluate `json.loads(chunk_lines[0])['case_id']`, which raises `IndexError`
on an empty chunk, `JSONDecodeError` on a malformed first line, and
`KeyError` when the parsed first line has no `case_id`.  A raised exception
aborts the remaining iterations (the already-written files persist). -/
def splitStep (lines : List CLine) (n : Nat)
    (st : List (String × List CLine) × Option String) (i : Nat) :
    List (String × List CLine) × Option String :=
  match st.2 with
  | some e => (st.1, some e)
  | none =>
    let chunk := chunkOf lines n i
    let acc := st.1 ++ [(chunkName (i + 1), chunk)]
    match chunk.head? with
    | none => (acc, some "IndexError: list index out of range")
    | some (CLine.bad m) => (acc, some m)
    | some (CLine.ok c) =>
      match c.case_id with
      | none => (acc, some "KeyError: case_id")
      | some _ => (acc, none)

/-- `split_jsonl`: read all lines, compute `lines_per_file = total // num_splits`,
and run the chunk-writing loop.  Returns the list of (filename, chunk) pairs
written, and the exception (if any) that aborted the run.
(`num_splits = 0` would raise `ZeroDivisionError` in Python and is treated
under the hypothesis `1 ≤ n` throughout.) -/
def split_jsonl (lines : List CLine) (n : Nat) :
    List (String × List CLine) × Option String :=
  (List.range n).foldl (splitStep lines n) ([], none)

/-- Whether a chunk's first line parses as JSON carrying a `case_id` field
(the condition under which `json.loads(chunk_lines[0])['case_id']` succeeds). -/
def firstLineOk : List CLine → Bool
  | CLine.ok c :: _ => c.case_id.isSome
  | _ => false

/-! ## Split Validator (`validate_split.py`, `validate_split`) -/

/-- A chunk file as seen by the validator: its filename and its lines. -/
structure SFile where
  name : String
  lines : List CLine
deriving DecidableEq, Repr

/-- The validator's per-file read loop
`case = json.loads(line); ids.append(case['case_id'])`, which has no
exception handling: a malformed line raises `JSONDecodeError` and a parsed
record without a `case_id` field raises `KeyError`, aborting the run. -/
def readIds : List CLine → Except String (List String)
  | [] => Except.ok []
  | CLine.bad m :: _ => Except.error m
  | CLine.ok c :: rest =>
    match c.case_id with
    | none => Except.error "KeyError: case_id"
    | some cid => (readIds rest).map (cid :: ·)

/-- Insertion step of the (stable) `sorted(...)` over filenames. -/
def insertByName (key : α → String) (x : α) : List α → List α
  | [] => [x]
  | y :: ys => if strLeB (key x) (key y) then x :: y :: ys else y :: insertByName key x ys

/-- Python `sorted(files)` by filename (stable, lexicographic on code points). -/
def sortByName (key : α → String) : List α → List α
  | [] => []
  | x :: xs => insertByName key x (sortByName key xs)

/-- Reading all split files in order, concatenating their id lists; the
first raised exception aborts the whole read. -/
def readIdsFiles : List SFile → Except String (List String)
  | [] => Except.ok []
  | f :: fs =>
    match readIds f.lines with
    | Except.error e => Except.error e
    | Except.ok ids =>
      match readIdsFiles fs with
      | Except.error e => Except.error e
      | Except.ok rest => Except.ok (ids ++ rest)

/-- The validator's reported results: the four hard checks, the two order
warnings, and the returned verdict `all_passed`. -/
structure VRes where
  countPass : Bool
  dupPass : Bool
  missingPass : Bool
  extraPass : Bool
  firstMatch : Bool
  lastMatch : Bool
  allPassed : Bool
deriving DecidableEq, Repr

/-- `validate_split`: read the original file's ids, then the ids of the
`.jsonl` files of the split directory in sorted filename order, run the
four hard checks (count equality, no duplicates, no missing, no extras) and
the two order warnings, and return `all_passed` — the AND of the four hard
checks.  The order checks index `original_case_ids[0]` / `split_case_ids[0]`
and the `[-1]` counterparts, so an empty id list raises `IndexError` there. -/
def validate_split (origLines : List CLine) (files : List SFile) :
    Except String VRes :=
  match readIds origLines with
  | Except.error e => Except.error e
  | Except.ok original_case_ids =>
    match readIdsFiles (sortByName SFile.name
        (files.filter (fun f => strEndsWith f.name ".jsonl"))) with
    | Except.error e => Except.error e
    | Except.ok split_case_ids =>
      let countPass := original_case_ids.length == split_case_ids.length
      let dupPass := !(split_case_ids.any (fun i => 1 < split_case_ids.count i))
      let missingPass := original_case_ids.all (fun i => split_case_ids.contains i)
      let extraPass := split_case_ids.all (fun i => original_case_ids.contains i)
      match original_case_ids, split_case_ids with
      | [], _ => Except.error "IndexError: list index out of range"
      | _, [] => Except.error "IndexError: list index out of range"
      | o :: os, s :: ss =>
        Except.ok ⟨countPass, dupPass, missingPass, extraPass,
          o == s,
          (o :: os).getLast (List.cons_ne_nil o os) == (s :: ss).getLast (List.cons_ne_nil s ss),
          countPass && dupPass && missingPass && extraPass⟩

/-! ## Classification Merger (`merge_classifications.py`) -/

/-- A classification-result entry as parsed from a result file line;
`classification` is `result.get('classification', {})` before the default
is applied. -/
structure REntry where
  case_id : Option String
  case_no : Option String
  classification : Option Classification
deriving DecidableEq, Repr

/-- One line of a classification-result file. -/
inductive RLine where
  | ok (e : REntry)
  | bad (msg : String)
deriving DecidableEq, Repr

/-- A classification-result file: its filename and its lines. -/
structure RFile where
  name : String
  lines : List RLine
deriving DecidableEq, Repr

/-- Composite key `(case_id, case_no)`. -/
abbrev MKey := String × String

/-- The in-memory `classifications` dict: an insertion-ordered association
list with unique keys, exactly Python's dict get/set/`in` observable
behaviour. -/
abbrev KVs := List (MKey × Classification)

/-- `d[k] = v`: replace the existing binding in place, else append. -/
def dictSet : KVs → MKey → Classification → KVs
  | [], k, v => [(k, v)]
  | p :: t, k, v => if p.1 = k then (k, v) :: t else p :: dictSet t k v

/-- `d.get(k)` / `d[k]`: the binding of `k`, if any. -/
def dictGet? (m : KVs) (k : MKey) : Option Classification :=
  (m.find? (fun p => decide (p.1 = k))).map (·.2)

/-- `k in d`. -/
def dictHasKey (m : KVs) (k : MKey) : Bool :=
  m.any (fun p => decide (p.1 = k))

/-- A recorded duplicate occurrence of a composite key during loading. -/
structure DupRec where
  case_id : String
  case_no : String
  file : String
  line : Nat
deriving DecidableEq, Repr

/-- One line of the `load_classifications` inner loop: skip malformed lines
(caught `JSONDecodeError`) and entries with a falsy `case_id`/`case_no`;
otherwise record a duplicate occurrence when the key is already present,
then unconditionally overwrite the mapping entry (last-write-wins). -/
def processRLine (fname : String) (st : KVs × List DupRec) (p : Nat × RLine) :
    KVs × List DupRec :=
  match p.2 with
  | RLine.bad _ => st
  | RLine.ok e =>
    if ¬ truthy e.case_id ∨ ¬ truthy e.case_no then st
    else
      let cid := e.case_id.getD ""
      let cno := e.case_no.getD ""
      let key : MKey := (cid, cno)
      let dups := if dictHasKey st.1 key then st.2 ++ [⟨cid, cno, fname, p.1⟩] else st.2
      (dictSet st.1 key (e.classification.getD ⟨none, none⟩), dups)

/-- The filename convention of result files:
`startswith('gender_classifications_results_') and endswith('.jsonl')`. -/
def resultFileFilter (f : RFile) : Bool :=
  strStartsWith f.name "gender_classifications_results_" && strEndsWith f.name ".jsonl"

/-- `load_classifications`: process the matching result files in sorted
filename order, line by line, building the composite-key mapping and the
duplicate-occurrence list. -/
def load_classifications (files : List RFile) : KVs × List DupRec :=
  let result_files := sortByName RFile.name (files.filter resultFileFilter)
  result_files.foldl (fun st f => (enumerate1 f.lines).foldl (processRLine f.name) st) ([], [])

/-- An entry of the `no_classification_found` list of the merge phase. -/
structure Unmatched where
  case_id : String
  case_no : String
  line : Nat
  reason : String
deriving DecidableEq, Repr

/-- The accumulated state of the merge phase: `merged_count`,
`no_classification_found`, `total_cases`, and the records written to the
output file. -/
structure MergeSt where
  merged : Nat
  unmatched : List Unmatched
  total : Nat
  output : List Case
deriving DecidableEq, Repr

/-- One line of the `merge_with_train` loop: a malformed line is caught and
skipped; a parsed record missing (or empty) `case_id`/`case_no` is recorded
as unmatched (with `'MISSING'` placeholders) and the loop `continue`s —
without writing the record; otherwise the record is written, augmented with
its classification on a composite-key hit and verbatim on a miss (the miss
also being recorded as unmatched). -/
def mergeStep (cls : KVs) (st : MergeSt) (p : Nat × CLine) : MergeSt :=
  match p.2 with
  | CLine.bad _ => st
  | CLine.ok c =>
    let st := { st with total := st.total + 1 }
    if ¬ truthy c.case_id ∨ ¬ truthy c.case_no then
      { st with unmatched := st.unmatched ++
          [⟨pyOr c.case_id "MISSING", pyOr c.case_no "MISSING", p.1,
            "Missing case_id or case_no in original file"⟩] }
    else
      let key : MKey := (c.case_id.getD "", c.case_no.getD "")
      match dictGet? cls key with
      | some v =>
        { st with merged := st.merged + 1,
                  output := st.output ++ [{ c with classification := some v }] }
      | none =>
        { st with
            unmatched := st.unmatched ++ [⟨key.1, key.2, p.1, "No matching classification found"⟩],
            output := st.output ++ [c] }

/-- `merge_with_train`: stream the base dataset once through `mergeStep`. -/
def merge_with_train (lines : List CLine) (cls : KVs) : MergeSt :=
  (enumerate1 lines).foldl (mergeStep cls) ⟨0, [], 0, []⟩

/-! ## Age Extractor (`extract_age_only.py`) -/

/-- Numeric value of a digit string. -/
def digitsVal (cs : List Char) : Nat :=
  cs.foldl (fun a c => a * 10 + (c.toNat - 48)) 0

/-- `int(match)` on a regex capture: the captures come from `\d{4}` / `\d+`
groups, so `int` succeeds exactly on (non-empty) digit strings; anything
else raises the caught `ValueError`. -/
def pyInt? (s : String) : Option Nat :=
  if s.data ≠ [] ∧ s.data.all Char.isDigit then some (digitsVal s.data) else none

/-- The inner `for match in matches` loop: `int(match)` (a failure being the
caught `ValueError`) followed by the sanity-range check; the first in-range
value is returned, out-of-range and unparsable candidates are skipped. -/
def firstInRangeList (lo hi : Nat) : List String → Option Nat
  | [] => none
  | s :: ss =>
    match pyInt? s with
    | some n => if lo ≤ n ∧ n ≤ hi then some n else firstInRangeList lo hi ss
    | none => firstInRangeList lo hi ss

/-- The `for pattern in patterns` loop: patterns are tried in fixed priority
order; the first pattern yielding an in-range candidate wins. -/
def firstInRangePatterns (lo hi : Nat) : List (List String) → Option Nat
  | [] => none
  | ms :: rest =>
    match firstInRangeList lo hi ms with
    | some n => some n
    | none => firstInRangePatterns lo hi rest

/-- The `for fact in facts[:10]` loop body shared by both extractors: skip
facts longer than 2000 characters, otherwise try the pattern list; return
at the first in-range candidate. -/
def scanFacts (get : FactEntry → List (List String)) (lo hi : Nat) :
    List FactEntry → Option Nat
  | [] => none
  | f :: fs =>
    if 2000 < f.len then scanFacts get lo hi fs
    else
      match firstInRangePatterns lo hi (get f) with
      | some n => some n
      | none => scanFacts get lo hi fs

/-- `AgeExtractor.extract_birth_year`: first 10 facts, birth-year patterns,
sanity range [1850, 2020]. -/
def extract_birth_year (facts : List FactEntry) : Option Nat :=
  scanFacts FactEntry.birthMatches 1850 2020 (facts.take 10)

/-- `AgeExtractor.extract_direct_age`: first 10 facts, direct-age patterns,
sanity range [0, 120]. -/
def extract_direct_age (facts : List FactEntry) : Option Nat :=
  scanFacts FactEntry.ageMatches 0 120 (facts.take 10)

/-- Gregorian leap year, as validated by `datetime`. -/
def isLeap (y : Nat) : Bool :=
  (y % 4 == 0 && y % 100 != 0) || y % 400 == 0

/-- Days in a month, as validated by `datetime`. -/
def daysInMonth (y m : Nat) : Nat :=
  if m = 2 then (if isLeap y then 29 else 28)
  else if m = 4 ∨ m = 6 ∨ m = 9 ∨ m = 11 then 30 else 31

/-- Python `s.split('-')` on the character list. -/
def splitDash : List Char → List (List Char)
  | [] => [[]]
  | c :: rest =>
    if c = '-' then [] :: splitDash rest
    else
      match splitDash rest with
      | g :: gs => (c :: g) :: gs
      | [] => [[c]]

/-- `datetime.strptime(s, '%Y-%m-%d').year`: `%Y` matches exactly four
digits, `%m` and `%d` one or two; the assembled numbers must form a valid
calendar date with year ≥ 1 (else `ValueError`).  Returns the year. -/
def strptimeYear (s : String) : Option Nat :=
  match splitDash s.data with
  | [ys, ms, ds] =>
    if ys.length = 4 ∧ ys.all Char.isDigit
        ∧ 1 ≤ ms.length ∧ ms.length ≤ 2 ∧ ms.all Char.isDigit
        ∧ 1 ≤ ds.length ∧ ds.length ≤ 2 ∧ ds.all Char.isDigit then
      let y := digitsVal ys
      let m := digitsVal ms
      let d := digitsVal ds
      if 1 ≤ y ∧ 1 ≤ m ∧ m ≤ 12 ∧ 1 ≤ d ∧ d ≤ daysInMonth y m then some y else none
    else none
  | _ => none

/-- `AgeExtractor.calculate_age_at_judgment`: `None` inputs yield `None`;
otherwise parse the judgment date, subtract (as integers — the difference
may be negative), and keep the result only in [0, 120]. -/
def calculate_age_at_judgment (birth_year : Option Nat) (judgment_date : Option String) :
    Option Nat :=
  match birth_year, judgment_date with
  | some y, some jd =>
    match strptimeYear jd with
    | some jy =>
      let age : Int := (jy : Int) - (y : Int)
      if 0 ≤ age ∧ age ≤ 120 then some age.toNat else none
    | none => none
  | _, _ => none

/-- The nested `age_info` object of an output entry. -/
structure AgeInfo where
  birth_year : Option Nat
  age_at_judgment : Option Nat
  age_source : Option String
deriving DecidableEq, Repr

/-- One output entry of the Age Extractor. -/
structure AgeResult where
  case_id : Option String
  case_no : Option String
  age_info : AgeInfo
deriving DecidableEq, Repr

/-- Python truthiness of an optional int (`if calculated_age:`): `None` and
`0` are both falsy. -/
def truthyNat : Option Nat → Bool
  | none => false
  | some n => n ≠ 0

/-- The per-record body of `process_dataset` after the eligibility guards:
run the extractors, derive the calculated age, pick the final age with
`calculated_age if calculated_age is not None else direct_age`, and set
`age_source` with the source's truthiness tests
`'calculated' if calculated_age else ('direct' if direct_age else None)`. -/
def processCase (c : Case) : AgeResult :=
  let birth_year := extract_birth_year c.facts
  let direct_age := extract_direct_age c.facts
  let calculated_age := calculate_age_at_judgment birth_year c.judgment_date
  let final_age := if calculated_age.isSome then calculated_age else direct_age
  let age_source : Option String :=
    if truthyNat calculated_age then some "calculated"
    else if truthyNat direct_age then some "direct" else none
  ⟨c.case_id, c.case_no, ⟨birth_year, final_age, age_source⟩⟩

/-- `case.get('classification', {}).get('gender')`. -/
def genderOf (c : Case) : Option String :=
  (c.classification.getD ⟨none, none⟩).gender

/-- `case.get('classification', {}).get('confidence')`. -/
def confidenceOf (c : Case) : Option String :=
  (c.classification.getD ⟨none, none⟩).confidence

/-- The combined eligibility condition of the two guards. -/
def eligibleCase (c : Case) : Bool :=
  (genderOf c == some "Male" || genderOf c == some "Female") &&
  (confidenceOf c == some "High" || confidenceOf c == some "Medium")

/-- One line of the `process_dataset` loop: malformed lines are caught and
skipped; the two guards `gender not in [...]` / `confidence not in [...]`
`continue` without emitting; eligible records append exactly one entry. -/
def processLine (acc : List AgeResult) (l : CLine) : List AgeResult :=
  match l with
  | CLine.bad _ => acc
  | CLine.ok c =>
    if ¬ (genderOf c = some "Male" ∨ genderOf c = some "Female") then acc
    else if ¬ (confidenceOf c = some "High" ∨ confidenceOf c = some "Medium") then acc
    else acc ++ [processCase c]

/-- `process_dataset`: stream the input once, accumulating the results list
that is then written to the output file. -/
def process_dataset (lines : List CLine) : List AgeResult :=
  lines.foldl processLine []

/-! ## Derived forms used by the theorems -/

/-- The parsed record of a line, if any. -/
def lineCase : CLine → Option Case
  | CLine.ok c => some c
  | CLine.bad _ => none

/-- The first-10, length-bounded scanning scope of the extractors. -/
def scannedFacts (facts : List FactEntry) : List FactEntry :=
  (facts.take 10).filter (fun f => decide (f.len ≤ 2000))

/-- The flat candidate stream of an extractor: all parsed integers produced
by the scanned facts, facts-in-order then patterns-in-priority-order then
matches-in-order. -/
def candidateVals (get : FactEntry → List (List String)) (facts : List FactEntry) :
    List Nat :=
  ((scannedFacts facts).flatMap (fun f => (get f).flatten)).filterMap pyInt?

theorem find?_append_eq (p : α → Bool) (l₁ l₂ : List α) :
    (l₁ ++ l₂).find? p = match l₁.find? p with
      | some a => some a
      | none => l₂.find? p := by
  induction l₁ with
  | nil => simp
  | cons x xs ih =>
    by_cases h : p x
    · simp [List.find?_cons, h]
    · simp [List.find?_cons, h, ih]

theorem firstInRangeList_eq_find (lo hi : Nat) (ms : List String) :
    firstInRangeList lo hi ms
      = (ms.filterMap pyInt?).find? (fun n => decide (lo ≤ n ∧ n ≤ hi)) := by
  induction ms with
  | nil => rfl
  | cons s ss ih =>
    rw [List.filterMap_cons]
    cases h : pyInt? s with
    | none => rw [firstInRangeList, h]; exact ih
    | some n =>
      rw [firstInRangeList, h, List.find?_cons]
      by_cases hr : lo ≤ n ∧ n ≤ hi
      · simp [hr]
      · simp [hr, ih]

theorem firstInRangePatterns_eq_find (lo hi : Nat) (mss : List (List String)) :
    firstInRangePatterns lo hi mss
      = (mss.flatten.filterMap pyInt?).find? (fun n => decide (lo ≤ n ∧ n ≤ hi)) := by
  induction mss with
  | nil => rfl
  | cons ms rest ih =>
    rw [firstInRangePatterns, firstInRangeList_eq_find, List.flatten_cons,
      List.filterMap_append, find?_append_eq]
    cases (ms.filterMap pyInt?).find? (fun n => decide (lo ≤ n ∧ n ≤ hi)) with
    | none => exact ih
    | some n => rfl

theorem scanFacts_eq_find (get : FactEntry → List (List String)) (lo hi : Nat)
    (l : List FactEntry) :
    scanFacts get lo hi l
      = (((l.filter (fun f => decide (f.len ≤ 2000))).flatMap
            (fun f => (get f).flatten)).filterMap pyInt?).find?
          (fun n => decide (lo ≤ n ∧ n ≤ hi)) := by
  induction l with
  | nil => rfl
  | cons f fs ih =>
    by_cases hl : 2000 < f.len
    · have h2 : ¬ (f.len ≤ 2000) := by omega
      rw [scanFacts, if_pos hl, List.filter_cons_of_neg (by simpa using h2)]
      exact ih
    · have h2 : f.len ≤ 2000 := by omega
      rw [scanFacts, if_neg hl, List.filter_cons_of_pos (by simpa using h2),
        List.flatMap_cons, List.filterMap_append, find?_append_eq,
        firstInRangePatterns_eq_find]
      cases ((get f).flatten.filterMap pyInt?).find? (fun n => decide (lo ≤ n ∧ n ≤ hi)) with
      | none => exact ih
      | some n => rfl

theorem eligibleCase_iff (c : Case) :
    eligibleCase c = true
      ↔ ((genderOf c = some "Male" ∨ genderOf c = some "Female")
          ∧ (confidenceOf c = some "High" ∨ confidenceOf c = some "Medium")) := by
  simp [eligibleCase]

theorem foldl_processLine (ls : List CLine) (acc : List AgeResult) :
    ls.foldl processLine acc
      = acc ++ ((ls.filterMap lineCase).filter eligibleCase).map processCase := by
  induction ls generalizing acc with
  | nil => simp
  | cons l ls ih =>
    cases l with
    | bad m =>
      rw [List.foldl_cons]
      simpa [processLine, lineCase] using ih acc
    | ok c =>
      rw [List.foldl_cons]
      have hfm : (CLine.ok c :: ls).filterMap lineCase = c :: ls.filterMap lineCase := by
        simp [lineCase]
      by_cases hg : genderOf c = some "Male" ∨ genderOf c = some "Female"
      · by_cases hc : confidenceOf c = some "High" ∨ confidenceOf c = some "Medium"
        · have he : eligibleCase c = true := (eligibleCase_iff c).2 ⟨hg, hc⟩
          have hp : processLine acc (CLine.ok c) = acc ++ [processCase c] := by
            simp [processLine, hg, hc]
          rw [hp, hfm, List.filter_cons_of_pos he, List.map_cons, ih]
          simp
        · have he : eligibleCase c = false := by
            rcases Bool.eq_false_or_eq_true (eligibleCase c) with h | h
            · exact absurd ((eligibleCase_iff c).1 h).2 hc
            · exact h
          have hp : processLine acc (CLine.ok c) = acc := by
            simp [processLine, hg, hc]
          rw [hp, hfm, List.filter_cons_of_neg (by simp [he]), ih]
      · have he : eligibleCase c = false := by
          rcases Bool.eq_false_or_eq_true (eligibleCase c) with h | h
          · exact absurd ((eligibleCase_iff c).1 h).1 hg
          · exact h
        have hp : processLine acc (CLine.ok c) = acc := by
          simp [processLine, hg]
        rw [hp, hfm, List.filter_cons_of_neg (by simp [he]), ih]

/-- **C7**: the Age Extractor emits exactly one entry — carrying the
record's `case_id` and `case_no` and its `age_info` — for every parsed
record whose gender is Male/Female with High/Medium confidence, in input
order and regardless of extraction success, and no entry at all for any
other record. -/
theorem extractor_eligibility_output (lines : List CLine) :
    process_dataset lines
        = ((lines.filterMap lineCase).filter eligibleCase).map processCase
    ∧ (∀ c : Case, (processCase c).case_id = c.case_id ∧ (processCase c).case_no = c.case_no) := by
  constructor
  · have := foldl_processLine lines []
    simpa [process_dataset] using this
  · intro c
    exact ⟨rfl, rfl⟩

/-- **C6**: each extractor scans at most the first 10 facts, skips facts
longer than 2000 characters, and returns the first candidate (facts in
order, then patterns in priority order, then matches in order) whose parsed
integer lies in the sanity range — so any emitted birth year lies in
[1850, 2020] and any emitted direct age in [0, 120], and the result is
absent when no in-range candidate exists. -/
theorem extractor_scan_policy (facts : List FactEntry) :
    extract_birth_year facts
        = (candidateVals FactEntry.birthMatches facts).find?
            (fun n => decide (1850 ≤ n ∧ n ≤ 2020))
    ∧ extract_direct_age facts
        = (candidateVals FactEntry.ageMatches facts).find?
            (fun n => decide (0 ≤ n ∧ n ≤ 120))
    ∧ (∀ y, extract_birth_year facts = some y → 1850 ≤ y ∧ y ≤ 2020)
    ∧ (∀ a, extract_direct_age facts = some a → 0 ≤ a ∧ a ≤ 120) := by
  refine ⟨scanFacts_eq_find _ _ _ _, scanFacts_eq_find _ _ _ _, ?_, ?_⟩
  · intro y hy
    rw [extract_birth_year, scanFacts_eq_find] at hy
    have := List.find?_some hy
    simpa using this
  · intro a ha
    rw [extract_direct_age, scanFacts_eq_find] at ha
    have := List.find?_some ha
    simpa using this

/-- Witness for C6 at a concrete input (the spec's basic-extraction fact). -/
theorem extractor_scan_policy_witness :
    extract_birth_year [⟨47, [["1975"], ["1975"], []], [[], [], []]⟩] = some 1975
    ∧ (1850 ≤ 1975 ∧ 1975 ≤ 2020) :=
  ⟨by decide,
   (extractor_scan_policy [⟨47, [["1975"], ["1975"], []], [[], [], []]⟩]).2.2.1 1975 (by decide)⟩

/-- **C2** (code bug): on an eligible record whose facts yield birth year
2010 and whose judgment date is in 2010, the calculated age 0 is the final
`age_at_judgment`, yet `age_source` is emitted as `None` — the source
computes `age_source` with Python truthiness (`'calculated' if
calculated_age else ...`), which treats the legitimate age 0 as false,
so `age_source` fails to name the producing path. -/
theorem age_source_truthiness_bug :
    process_dataset
        [CLine.ok ⟨some "001", some "2/2010", some ⟨some "Male", some "High"⟩,
            [⟨31, [["2010"], ["2010"], []], [[], [], []]⟩], some "2010-06-01"⟩]
      = [⟨some "001", some "2/2010", ⟨some 2010, some 0, none⟩⟩] := by
  decide

/-! ## Splitter theorems -/

/-- The (filename, chunk) pair written by iteration `i`. -/
def mkChunkFile (lines : List CLine) (n i : Nat) : String × List CLine :=
  (chunkName (i + 1), chunkOf lines n i)

theorem splitStep_error (lines : List CLine) (n : Nat)
    (is : List Nat) (st : List (String × List CLine) × Option String)
    (e : String) (h : st.2 = some e) :
    is.foldl (splitStep lines n) st = (st.1, some e) := by
  induction is generalizing st with
  | nil => obtain ⟨a, b⟩ := st; simp_all
  | cons i is ih =>
    rw [List.foldl_cons]
    have hs : splitStep lines n st i = (st.1, some e) := by
      obtain ⟨a, b⟩ := st
      simp only at h
      simp [splitStep, h]
    rw [hs, ih (st.1, some e) rfl]

theorem splitStep_none_eq (lines : List CLine) (n i : Nat)
    (st : List (String × List CLine) × Option String) (h : st.2 = none) :
    splitStep lines n st i
      = (st.1 ++ [mkChunkFile lines n i],
          match (chunkOf lines n i).head? with
          | none => some "IndexError: list index out of range"
          | some (CLine.bad m) => some m
          | some (CLine.ok c) =>
            match c.case_id with
            | none => some "KeyError: case_id"
            | some _ => none) := by
  obtain ⟨a, b⟩ := st
  simp only at h
  subst h
  cases hh : (chunkOf lines n i).head? with
  | none => simp [splitStep, hh, mkChunkFile]
  | some x =>
    cases x with
    | bad m => simp [splitStep, hh, mkChunkFile]
    | ok c =>
      cases hid : c.case_id with
      | none => simp [splitStep, hh, hid, mkChunkFile]
      | some v => simp [splitStep, hh, hid, mkChunkFile]

theorem splitFold_ok (lines : List CLine) (n : Nat) (is : List Nat)
    (st : List (String × List CLine) × Option String)
    (h : (is.foldl (splitStep lines n) st).2 = none) :
    st.2 = none
    ∧ is.foldl (splitStep lines n) st
        = (st.1 ++ is.map (mkChunkFile lines n), none)
    ∧ ∀ i ∈ is, firstLineOk (chunkOf lines n i) = true := by
  induction is generalizing st with
  | nil =>
    obtain ⟨a, b⟩ := st
    simp only [List.foldl_nil] at h ⊢
    subst h
    simp
  | cons i is ih =>
    rw [List.foldl_cons] at h ⊢
    have hst : st.2 = none := by
      cases he : st.2 with
      | none => rfl
      | some e =>
        have h1 : splitStep lines n st i = (st.1, some e) := by
          obtain ⟨a, b⟩ := st
          simp only at he
          simp [splitStep, he]
        rw [h1, splitStep_error lines n is (st.1, some e) e rfl] at h
        simp at h
    have hstep := splitStep_none_eq lines n i st hst
    obtain ⟨h2, h3, h4⟩ := ih (splitStep lines n st i) h
    rw [hstep] at h2
    cases hch : chunkOf lines n i with
    | nil => rw [hch] at h2; simp at h2
    | cons x xs =>
      cases x with
      | bad m => rw [hch] at h2; simp at h2
      | ok c =>
        cases hid : c.case_id with
        | none => rw [hch] at h2; simp [hid] at h2
        | some v =>
          have hok : firstLineOk (chunkOf lines n i) = true := by
            rw [hch]; simp [firstLineOk, hid]
          refine ⟨hst, ?_, ?_⟩
          · rw [h3, hstep]
            simp [List.map_cons, List.append_assoc]
          · intro j hj
            rcases List.mem_cons.mp hj with rfl | hj2
            · exact hok
            · exact h4 j hj2

theorem split_jsonl_ok (lines : List CLine) (n : Nat)
    (h : (split_jsonl lines n).2 = none) :
    split_jsonl lines n = ((List.range n).map (mkChunkFile lines n), none)
    ∧ ∀ i ∈ List.range n, firstLineOk (chunkOf lines n i) = true := by
  obtain ⟨-, h2, h3⟩ := splitFold_ok lines n (List.range n) ([], none) h
  exact ⟨by simpa using h2, h3⟩

theorem split_jsonl_crash (lines : List CLine) (n : Nat)
    (h1 : 1 ≤ n) (h2 : lines.length < n) :
    split_jsonl lines n
      = ([(chunkName 1, [])], some "IndexError: list index out of range") := by
  obtain ⟨m, rfl⟩ : ∃ m, n = m + 1 := ⟨n - 1, by omega⟩
  have hlpf : lines.length / (m + 1) = 0 := Nat.div_eq_of_lt h2
  have hchunk : chunkOf lines (m + 1) 0 = [] := by
    rw [chunkOf]
    simp only [hlpf, Nat.add_sub_cancel]
    rcases Nat.eq_zero_or_pos m with rfl | hm
    · have : lines.length = 0 := by omega
      simp [this, List.length_eq_zero.mp this]
    · have hne : (0 : Nat) ≠ m := by omega
      simp [hne]
  have hstep : splitStep lines (m + 1) ([], none) 0
      = ([(chunkName 1, [])], some "IndexError: list index out of range") := by
    rw [splitStep_none_eq lines (m + 1) 0 ([], none) rfl, hchunk]
    simp [mkChunkFile, hchunk]
  rw [split_jsonl, List.range_succ_eq_map, List.foldl_cons, hstep]
  exact splitStep_error lines (m + 1) _ _ _ rfl

/-- **C10**: with `1 ≤ num_splits`, if the source has fewer lines than
`num_splits` then `lines_per_file` is 0, the first (empty) chunk file is
written and the run aborts on `chunk_lines[0]` with an `IndexError` right
after — a partial side effect; and conversely a run that completes without
error requires `num_splits ≤ total_lines` and every written chunk to start
with a line that parses as JSON carrying `case_id`. -/
theorem splitter_abort_conditions (lines : List CLine) (n : Nat) (h1 : 1 ≤ n) :
    (lines.length < n →
        split_jsonl lines n
          = ([(chunkName 1, [])], some "IndexError: list index out of range"))
    ∧ ((split_jsonl lines n).2 = none →
        n ≤ lines.length ∧ ∀ f ∈ (split_jsonl lines n).1, firstLineOk f.2 = true) := by
  constructor
  · exact split_jsonl_crash lines n h1
  · intro h
    obtain ⟨hfiles, hok⟩ := split_jsonl_ok lines n h
    constructor
    · by_contra hlt
      push_neg at hlt
      rw [split_jsonl_crash lines n h1 hlt] at h
      simp at h
    · intro f hf
      rw [hfiles] at hf
      simp only [List.mem_map] at hf
      obtain ⟨i, hi, rfl⟩ := hf
      exact hok i hi

/-- Witness for C10: a one-line source with two requested splits aborts
after writing an empty first chunk; a one-line source with one split
completes with every chunk's first line parsing. -/
theorem splitter_abort_conditions_witness :
    split_jsonl [CLine.ok ⟨some "w1", some "n1", none, [], none⟩] 2
        = ([(chunkName 1, [])], some "IndexError: list index out of range")
    ∧ (1 ≤ ([CLine.ok ⟨some "w1", some "n1", none, [], none⟩] : List CLine).length
        ∧ ∀ f ∈ (split_jsonl [CLine.ok ⟨some "w1", some "n1", none, [], none⟩] 1).1,
            firstLineOk f.2 = true) :=
  ⟨(splitter_abort_conditions [CLine.ok ⟨some "w1", some "n1", none, [], none⟩] 2
      (by decide)).1 (by decide),
   (splitter_abort_conditions [CLine.ok ⟨some "w1", some "n1", none, [], none⟩] 1
      (by decide)).2 (by decide)⟩

theorem chunkOf_length_mid (lines : List CLine) (n i : Nat) (hi : i < n - 1) :
    (chunkOf lines n i).length = lines.length / n := by
  have hne : i ≠ n - 1 := by omega
  have hmul : n * (lines.length / n) ≤ lines.length := by
    rw [Nat.mul_comm]; exact Nat.div_mul_le_self lines.length n
  have hbound : (i + 1) * (lines.length / n) ≤ lines.length :=
    le_trans (Nat.mul_le_mul_right _ (by omega)) hmul
  have hsucc : (i + 1) * (lines.length / n) = i * (lines.length / n) + lines.length / n :=
    Nat.succ_mul i _
  rw [hsucc] at hbound
  rw [chunkOf]
  simp only [hne, if_false, List.length_take, List.length_drop]
  rw [hsucc, Nat.add_sub_cancel_left]
  exact Nat.min_eq_left (by omega)

theorem chunkOf_length_last (lines : List CLine) (n : Nat) (h1 : 1 ≤ n) :
    (chunkOf lines n (n - 1)).length = lines.length - (n - 1) * (lines.length / n)
    ∧ lines.length / n ≤ (chunkOf lines n (n - 1)).length := by
  have hmul : n * (lines.length / n) ≤ lines.length := by
    rw [Nat.mul_comm]; exact Nat.div_mul_le_self lines.length n
  have hsplit : (n - 1) * (lines.length / n) + lines.length / n
      = n * (lines.length / n) := by
    have hn : n - 1 + 1 = n := Nat.sub_add_cancel h1
    calc (n - 1) * (lines.length / n) + lines.length / n
        = (n - 1 + 1) * (lines.length / n) := (Nat.succ_mul _ _).symm
      _ = n * (lines.length / n) := by rw [hn]
  have hlen : (chunkOf lines n (n - 1)).length
      = lines.length - (n - 1) * (lines.length / n) := by
    rw [chunkOf]
    simp only [if_pos, List.length_take, List.length_drop, Nat.min_self]
  exact ⟨hlen, by rw [hlen]; omega⟩

theorem flatten_uniform_chunks (xs : List CLine) (lpf : Nat) (k : Nat) :
    ((List.range k).map (fun i => (xs.drop (i * lpf)).take lpf)).flatten
      = xs.take (k * lpf) := by
  induction k with
  | zero => simp
  | succ k ih =>
    rw [List.range_succ, List.map_append, List.flatten_append, ih]
    simp only [List.map_cons, List.map_nil, List.flatten_cons, List.flatten_nil,
      List.append_nil]
    rw [Nat.succ_mul, List.take_add]

theorem flatten_chunks (lines : List CLine) (n : Nat) (h1 : 1 ≤ n) :
    ((List.range n).map (fun i => chunkOf lines n i)).flatten = lines := by
  obtain ⟨m, rfl⟩ : ∃ m, n = m + 1 := ⟨n - 1, by omega⟩
  rw [List.range_succ, List.map_append, List.flatten_append]
  have huni : ∀ i ∈ List.range m,
      chunkOf lines (m + 1) i
        = (lines.drop (i * (lines.length / (m + 1)))).take (lines.length / (m + 1)) := by
    intro i hi
    have hne : i ≠ m + 1 - 1 := by
      have := List.mem_range.mp hi; omega
    rw [chunkOf]
    simp only [hne, if_false]
    congr 1
    rw [Nat.succ_mul, Nat.add_sub_cancel_left]
  rw [List.map_congr_left huni, flatten_uniform_chunks]
  have hlast : chunkOf lines (m + 1) m = lines.drop (m * (lines.length / (m + 1))) := by
    rw [chunkOf]
    simp only [Nat.add_sub_cancel, if_pos, List.take_of_length_le, List.length_drop,
      Nat.le_refl]
  simp only [List.map_cons, List.map_nil, List.flatten_cons, List.flatten_nil,
    List.append_nil, hlast]
  exact List.take_append_drop _ lines

set_option maxRecDepth 4000 in
theorem chunkName_mono_bounded :
    ∀ a ∈ List.range 100, ∀ b ∈ List.range 100, a < b →
      listLt (chunkName a).data (chunkName b).data = true := by decide

/-- **C5** (amended): with `1 ≤ num_splits`, whenever the Splitter run
completes without an exception (which per C10 requires
`num_splits ≤ total_lines` and each chunk's first line to parse), it writes
exactly `num_splits` chunk files with zero-padded names; chunks `1..N-1`
hold exactly `total_lines / N` lines each, the final chunk holds the
remaining `total_lines - (N-1)*(total_lines / N)` lines (at least
`total_lines / N`), and concatenating the chunks in the order written —
which is strictly increasing lexical filename order whenever `N ≤ 99` —
reproduces the source lines exactly. -/
theorem splitter_partition_roundtrip (lines : List CLine) (n : Nat)
    (h1 : 1 ≤ n) (h : (split_jsonl lines n).2 = none) :
    (split_jsonl lines n).1 = (List.range n).map (mkChunkFile lines n)
    ∧ (split_jsonl lines n).1.length = n
    ∧ (∀ i, i < n - 1 → (chunkOf lines n i).length = lines.length / n)
    ∧ (chunkOf lines n (n - 1)).length
        = lines.length - (n - 1) * (lines.length / n)
    ∧ lines.length / n ≤ (chunkOf lines n (n - 1)).length
    ∧ ((split_jsonl lines n).1.map (fun f => f.2)).flatten = lines
    ∧ (n ≤ 99 →
        ((split_jsonl lines n).1.map (fun f => f.1)).Chain'
          (fun a b => listLt a.data b.data = true)) := by
  have hfiles : (split_jsonl lines n).1 = (List.range n).map (mkChunkFile lines n) := by
    rw [(split_jsonl_ok lines n h).1]
  refine ⟨hfiles, ?_, fun i hi => chunkOf_length_mid lines n i hi,
    (chunkOf_length_last lines n h1).1, (chunkOf_length_last lines n h1).2, ?_, ?_⟩
  · rw [hfiles]; simp
  · rw [hfiles, List.map_map]
    have : (mkChunkFile lines n) ∘ id = mkChunkFile lines n := rfl
    calc ((List.range n).map ((fun f => f.2) ∘ mkChunkFile lines n)).flatten
        = ((List.range n).map (fun i => chunkOf lines n i)).flatten := by
          apply congrArg
          apply List.map_congr_left
          intro i _
          rfl
      _ = lines := flatten_chunks lines n h1
  · intro h99
    rw [hfiles, List.map_map]
    have hmap : (List.range n).map ((fun f => f.1) ∘ mkChunkFile lines n)
        = (List.range n).map (fun i => chunkName (i + 1)) := by
      apply List.map_congr_left
      intro i _
      rfl
    rw [hmap]
    obtain ⟨m, rfl⟩ : ∃ m, n = m + 1 := ⟨n - 1, by omega⟩
    rw [List.chain'_map]
    rw [List.chain'_range_succ]
    intro i hi
    exact chunkName_mono_bounded (i + 1) (by simp [List.mem_range]; omega)
      (i + 1 + 1) (by simp [List.mem_range]; omega) (by omega)

/-- Counterexample for C5 as stated: a one-line source split into 2 chunks
produces one file, not 2, and the concatenation of what was produced is
empty rather than the source — the run crashes (see C10). -/
theorem splitter_partition_cex :
    (split_jsonl [CLine.ok ⟨some "x1", some "m1", none, [], none⟩] 2).1.length ≠ 2
    ∧ ((split_jsonl [CLine.ok ⟨some "x1", some "m1", none, [], none⟩] 2).1.map
          (fun f => f.2)).flatten
        ≠ [CLine.ok ⟨some "x1", some "m1", none, [], none⟩] := by
  constructor
  · decide
  · decide

/-- Witness for C5 at a concrete input: five lines split into two chunks of
2 and 3 whose concatenation is the source. -/
theorem splitter_partition_roundtrip_witness :
    ((split_jsonl [CLine.ok ⟨some "r1", some "m", none, [], none⟩,
        CLine.ok ⟨some "r2", some "m", none, [], none⟩,
        CLine.ok ⟨some "r3", some "m", none, [], none⟩,
        CLine.ok ⟨some "r4", some "m", none, [], none⟩,
        CLine.ok ⟨some "r5", some "m", none, [], none⟩] 2).1.map (fun f => f.2)).flatten
      = [CLine.ok ⟨some "r1", some "m", none, [], none⟩,
        CLine.ok ⟨some "r2", some "m", none, [], none⟩,
        CLine.ok ⟨some "r3", some "m", none, [], none⟩,
        CLine.ok ⟨some "r4", some "m", none, [], none⟩,
        CLine.ok ⟨some "r5", some "m", none, [], none⟩] :=
  (splitter_partition_roundtrip _ 2 (by decide) (by decide)).2.2.2.2.2.1

/-! ## Merger theorems -/

theorem dictGet?_dictSet (m : KVs) (k k' : MKey) (v : Classification) :
    dictGet? (dictSet m k v) k' = if k' = k then some v else dictGet? m k' := by
  induction m with
  | nil =>
    by_cases h : k' = k
    · simp [dictSet, dictGet?, h]
    · simp [dictSet, dictGet?, h, Ne.symm h]
  | cons p t ih =>
    by_cases hp : p.1 = k
    · rw [dictSet, if_pos hp]
      by_cases h : k' = k
      · simp [dictGet?, h]
      · simp only [dictGet?, List.find?_cons] at *
        have h1 : (decide (k = k')) = false := by simp [Ne.symm h]
        have h2 : (decide (p.1 = k')) = false := by simp [hp, Ne.symm h]
        simp [h, h1, h2]
    · rw [dictSet, if_neg hp]
      by_cases h : k' = k
      · subst h
        have h2 : (decide (p.1 = k')) = false := by simp [hp]
        simp only [dictGet?, List.find?_cons, h2, cond_false, if_pos rfl] at *
        simpa using ih
      · by_cases hpk : p.1 = k'
        · simp [dictGet?, List.find?_cons, hpk, h]
        · have h2 : (decide (p.1 = k')) = false := by simp [hpk]
          simp only [dictGet?, List.find?_cons, h2, cond_false, if_neg h] at *
          simpa [h] using ih

theorem dictHasKey_dictSet (m : KVs) (k k' : MKey) (v : Classification) :
    dictHasKey (dictSet m k v) k' = (decide (k' = k) || dictHasKey m k') := by
  induction m with
  | nil =>
    by_cases h : k' = k
    · simp [dictSet, dictHasKey, h]
    · simp [dictSet, dictHasKey, h, Ne.symm h]
  | cons p t ih =>
    by_cases hp : p.1 = k
    · rw [dictSet, if_pos hp]
      by_cases h : k' = k
      · simp [dictHasKey, h]
      · simp [dictHasKey, h, hp, Ne.symm h]
    · rw [dictSet, if_neg hp]
      simp only [dictHasKey, List.any_cons] at *
      rw [ih]
      cases decide (p.1 = k') <;> cases decide (k' = k) <;> simp

theorem dictHasKey_isSome (m : KVs) (k : MKey) :
    dictHasKey m k = (dictGet? m k).isSome := by
  induction m with
  | nil => rfl
  | cons p t ih =>
    by_cases hp : p.1 = k
    · simp [dictHasKey, dictGet?, List.find?_cons, hp]
    · have h2 : (decide (p.1 = k)) = false := by simp [hp]
      simp only [dictHasKey, dictGet?, List.any_cons, List.find?_cons, h2, cond_false,
        Bool.false_or]
      simpa [dictGet?] using ih

/-- A valid occurrence of a composite key contributed by one result-file
line: file name, 1-based line number, composite key, stored payload. -/
structure Occ where
  file : String
  line : Nat
  key : MKey
  cls : Classification
deriving DecidableEq, Repr

/-- The valid occurrence, if any, contributed by an enumerated line. -/
def occOf (fname : String) (p : Nat × RLine) : Option Occ :=
  match p.2 with
  | RLine.bad _ => none
  | RLine.ok e =>
    if ¬ truthy e.case_id ∨ ¬ truthy e.case_no then none
    else some ⟨fname, p.1, (e.case_id.getD "", e.case_no.getD ""),
      e.classification.getD ⟨none, none⟩⟩

/-- The state update performed for one valid occurrence. -/
def occStep (st : KVs × List DupRec) (o : Occ) : KVs × List DupRec :=
  (dictSet st.1 o.key o.cls,
   if dictHasKey st.1 o.key then st.2 ++ [⟨o.key.1, o.key.2, o.file, o.line⟩] else st.2)

/-- All valid occurrences of one result file, in line order. -/
def fileOccs (f : RFile) : List Occ :=
  (enumerate1 f.lines).filterMap (occOf f.name)

/-- All valid occurrences across the matching result files, in processing
order: sorted filename order, then line order. -/
def allOccs (files : List RFile) : List Occ :=
  (sortByName RFile.name (files.filter resultFileFilter)).flatMap fileOccs

theorem processRLine_occ (fname : String) (st : KVs × List DupRec) (p : Nat × RLine) :
    processRLine fname st p
      = match occOf fname p with
        | none => st
        | some o => occStep st o := by
  obtain ⟨ln, l⟩ := p
  cases l with
  | bad m => rfl
  | ok e =>
    by_cases h : ¬ truthy e.case_id ∨ ¬ truthy e.case_no
    · simp only [processRLine, occOf, if_pos h]
    · simp only [processRLine, occOf, if_neg h, occStep]

theorem foldl_processRLine (fname : String) (ps : List (Nat × RLine))
    (st : KVs × List DupRec) :
    ps.foldl (processRLine fname) st
      = (ps.filterMap (occOf fname)).foldl occStep st := by
  induction ps generalizing st with
  | nil => rfl
  | cons p ps ih =>
    rw [List.foldl_cons, List.filterMap_cons, processRLine_occ]
    cases h : occOf fname p with
    | none => exact ih st
    | some o => rw [List.foldl_cons]; exact ih (occStep st o)

theorem load_eq_occFold (files : List RFile) :
    load_classifications files = (allOccs files).foldl occStep ([], []) := by
  rw [load_classifications, allOccs]
  generalize sortByName RFile.name (files.filter resultFileFilter) = fs
  induction fs using List.reverseRecOn with
  | nil => rfl
  | append_singleton fs f ih =>
    rw [List.foldl_append, List.flatMap_append, List.foldl_append, ih,
      List.foldl_cons, List.foldl_nil]
    simp only [List.flatMap_cons, List.flatMap_nil, List.append_nil]
    exact foldl_processRLine f.name (enumerate1 f.lines) _

theorem occFold_spec (occs : List Occ) (k : MKey) :
    dictGet? ((occs.foldl occStep ([], [])).1) k
        = ((occs.filter (fun o => decide (o.key = k))).getLast?).map (fun o => o.cls)
    ∧ dictHasKey ((occs.foldl occStep ([], [])).1) k
        = !(occs.filter (fun o => decide (o.key = k))).isEmpty
    ∧ ((occs.foldl occStep ([], [])).2).filter (fun d => decide ((d.case_id, d.case_no) = k))
        = ((occs.filter (fun o => decide (o.key = k))).drop 1).map
            (fun o => (⟨o.key.1, o.key.2, o.file, o.line⟩ : DupRec)) := by
  induction occs using List.reverseRecOn with
  | nil => exact ⟨rfl, rfl, rfl⟩
  | append_singleton os o ih =>
    obtain ⟨ih1, ih2, ih3⟩ := ih
    rw [List.foldl_append, List.foldl_cons, List.foldl_nil] at *
    rw [List.filter_append]
    by_cases ho : o.key = k
    · have hfo : List.filter (fun o => decide (o.key = k)) [o] = [o] := by simp [ho]
      rw [hfo]
      refine ⟨?_, ?_, ?_⟩
      · rw [occStep]
        simp only
        rw [dictGet?_dictSet]
        rw [if_pos ho.symm, List.getLast?_concat]
        rfl
      · rw [occStep]
        simp only
        rw [dictHasKey_dictSet]
        simp [ho]
      · rw [occStep]
        simp only
        by_cases hk : dictHasKey ((os.foldl occStep ([], [])).1) o.key
        · rw [if_pos hk]
          have hne : List.filter (fun x => decide (x.key = k)) os ≠ [] := by
            rw [ho] at hk
            rw [ih2] at hk
            simpa [List.isEmpty_iff] using hk
          have h1 : 1 ≤ (List.filter (fun x => decide (x.key = k)) os).length :=
            List.length_pos.mpr hne
          rw [List.filter_append, ih3]
          have hdup : List.filter (fun d => decide ((d.case_id, d.case_no) = k))
              [(⟨o.key.1, o.key.2, o.file, o.line⟩ : DupRec)]
              = [(⟨o.key.1, o.key.2, o.file, o.line⟩ : DupRec)] := by
            simp [ho]
          rw [hdup, List.drop_append_of_le_length h1, List.map_append]
          simp
        · rw [if_neg hk]
          have hnil : List.filter (fun x => decide (x.key = k)) os = [] := by
            rw [ho] at hk
            rw [ih2] at hk
            simpa [List.isEmpty_iff] using hk
          rw [ih3, hnil]
          simp
    · have hfo : List.filter (fun x => decide (x.key = k)) [o] = [] := by simp [ho]
      rw [hfo, List.append_nil]
      refine ⟨?_, ?_, ?_⟩
      · rw [occStep]
        simp only
        rw [dictGet?_dictSet, if_neg (fun h => ho h.symm)]
        exact ih1
      · rw [occStep]
        simp only
        have hne2 : (decide (k = o.key)) = false := by
          simp only [decide_eq_false_iff_not]
          exact fun h => ho h.symm
        rw [dictHasKey_dictSet, hne2, Bool.false_or]
        exact ih2
      · rw [occStep]
        simp only
        by_cases hk : dictHasKey ((os.foldl occStep ([], [])).1) o.key
        · rw [if_pos hk, List.filter_append, ih3]
          have hdup : List.filter (fun d => decide ((d.case_id, d.case_no) = k))
              [(⟨o.key.1, o.key.2, o.file, o.line⟩ : DupRec)] = [] := by
            simp [ho]
          rw [hdup, List.append_nil]
        · rw [if_neg hk]
          exact ih3

/-- **C4**: during loading, classification files are processed in sorted
filename order and lines in file order; for every composite key the final
mapping entry is the payload of the last valid occurrence in that
processing order (last-write-wins, later files winning ties), and the
recorded duplicates for that key are exactly its occurrences after the
first, each with its file and line number. -/
theorem load_last_write_wins (files : List RFile) (k : MKey) :
    dictGet? (load_classifications files).1 k
        = (((allOccs files).filter (fun o => decide (o.key = k))).getLast?).map
            (fun o => o.cls)
    ∧ (load_classifications files).2.filter (fun d => decide ((d.case_id, d.case_no) = k))
        = (((allOccs files).filter (fun o => decide (o.key = k))).drop 1).map
            (fun o => (⟨o.key.1, o.key.2, o.file, o.line⟩ : DupRec)) := by
  rw [load_eq_occFold]
  exact ⟨(occFold_spec (allOccs files) k).1, (occFold_spec (allOccs files) k).2.2⟩

/-- Whether a parsed record carries truthy `case_id` and `case_no`. -/
def hasKeys (c : Case) : Bool := truthy c.case_id && truthy c.case_no

/-- The composite key of a record (as built after the truthiness guard). -/
def keyOf (c : Case) : MKey := (c.case_id.getD "", c.case_no.getD "")

/-- The record as the merge phase writes it: augmented with its
classification on a composite-key hit, verbatim on a miss. -/
def augmentFn (cls : KVs) (c : Case) : Case :=
  match dictGet? cls (keyOf c) with
  | some v => { c with classification := some v }
  | none => c

/-- The `no_classification_found` entry an enumerated line contributes. -/
def unmatchedOf (cls : KVs) (p : Nat × CLine) : Option Unmatched :=
  match p.2 with
  | CLine.bad _ => none
  | CLine.ok c =>
    if ¬ truthy c.case_id ∨ ¬ truthy c.case_no then
      some ⟨pyOr c.case_id "MISSING", pyOr c.case_no "MISSING", p.1,
        "Missing case_id or case_no in original file"⟩
    else
      match dictGet? cls (keyOf c) with
      | some _ => none
      | none => some ⟨(keyOf c).1, (keyOf c).2, p.1, "No matching classification found"⟩

theorem mergeFold_spec (cls : KVs) (ps : List (Nat × CLine)) (st : MergeSt) :
    ps.foldl (mergeStep cls) st
      = ⟨st.merged + ((ps.filterMap (fun p => lineCase p.2)).filter
            (fun c => hasKeys c && (dictGet? cls (keyOf c)).isSome)).length,
         st.unmatched ++ ps.filterMap (unmatchedOf cls),
         st.total + (ps.filterMap (fun p => lineCase p.2)).length,
         st.output ++ ((ps.filterMap (fun p => lineCase p.2)).filter hasKeys).map
           (augmentFn cls)⟩ := by
  induction ps generalizing st with
  | nil => simp
  | cons p ps ih =>
    obtain ⟨ln, l⟩ := p
    rw [List.foldl_cons]
    cases l with
    | bad m =>
      rw [show mergeStep cls st (ln, CLine.bad m) = st from rfl, ih]
      simp [lineCase, unmatchedOf]
    | ok c =>
      by_cases hkc : ¬ truthy c.case_id ∨ ¬ truthy c.case_no
      · have hstep : mergeStep cls st (ln, CLine.ok c)
            = { st with
                total := st.total + 1,
                unmatched := st.unmatched ++
                  [⟨pyOr c.case_id "MISSING", pyOr c.case_no "MISSING", ln,
                    "Missing case_id or case_no in original file"⟩] } := by
          simp only [mergeStep, if_pos hkc]
        have hhk : hasKeys c = false := by
          rw [hasKeys]
          rcases hkc with h | h <;> simp [Bool.not_eq_true] at h <;> simp [h]
        have hum : unmatchedOf cls (ln, CLine.ok c)
            = some ⟨pyOr c.case_id "MISSING", pyOr c.case_no "MISSING", ln,
                "Missing case_id or case_no in original file"⟩ := by
          simp only [unmatchedOf, if_pos hkc]
        rw [hstep, ih]
        simp [lineCase, hum, hhk, Nat.add_assoc, Nat.add_comm]
      · have hhk : hasKeys c = true := by
          rw [hasKeys]
          push_neg at hkc
          simp [hkc.1, hkc.2]
        cases hget : dictGet? cls (keyOf c) with
        | some v =>
          have hstep : mergeStep cls st (ln, CLine.ok c)
              = { st with
                  total := st.total + 1,
                  merged := st.merged + 1,
                  output := st.output ++ [{ c with classification := some v }] } := by
            simp only [mergeStep, if_neg hkc]
            rw [show ((c.case_id.getD "", c.case_no.getD "") : MKey) = keyOf c from rfl,
              hget]
          have hum : unmatchedOf cls (ln, CLine.ok c) = none := by
            simp only [unmatchedOf, if_neg hkc]
            rw [hget]
          have haug : augmentFn cls c = { c with classification := some v } := by
            rw [augmentFn, hget]
          rw [hstep, ih]
          simp [lineCase, hum, hhk, hget, haug, Nat.add_assoc, Nat.add_comm]
        | none =>
          have hstep : mergeStep cls st (ln, CLine.ok c)
              = { st with
                  total := st.total + 1,
                  unmatched := st.unmatched ++
                    [⟨(keyOf c).1, (keyOf c).2, ln, "No matching classification found"⟩],
                  output := st.output ++ [c] } := by
            simp only [mergeStep, if_neg hkc]
            rw [show ((c.case_id.getD "", c.case_no.getD "") : MKey) = keyOf c from rfl,
              hget]
            rfl
          have hum : unmatchedOf cls (ln, CLine.ok c)
              = some ⟨(keyOf c).1, (keyOf c).2, ln, "No matching classification found"⟩ := by
            simp only [unmatchedOf, if_neg hkc]
            rw [hget]
          have haug : augmentFn cls c = c := by
            rw [augmentFn, hget]
          rw [hstep, ih]
          simp [lineCase, hum, hhk, hget, haug, Nat.add_assoc, Nat.add_comm]

theorem enumFrom_filterMap_snd (g : α → Option β) (xs : List α) (i : Nat) :
    (enumFrom i xs).filterMap (fun p => g p.2) = xs.filterMap g := by
  induction xs generalizing i with
  | nil => rfl
  | cons x xs ih =>
    rw [enumFrom, List.filterMap_cons, List.filterMap_cons]
    cases g x with
    | none => exact ih (i + 1)
    | some b => rw [ih (i + 1)]

/-- **C1** (amended): for every base dataset and every mapping (including
the empty one), the merge phase writes exactly one output record per parsed
input record that has truthy `case_id` and `case_no` — augmented with its
classification on a composite-key hit, verbatim on a miss — so the output
count equals the count of parsed records with both key fields, not the full
input count; a record missing `case_id` or `case_no` is recorded as
unmatched with reason "Missing case_id or case_no in original file" but is
dropped from the output (the loop `continue`s before the write). -/
theorem merger_merge_totality (lines : List CLine) (cls : KVs) :
    (merge_with_train lines cls).output
        = ((lines.filterMap lineCase).filter hasKeys).map (augmentFn cls)
    ∧ (merge_with_train lines cls).output.length
        = ((lines.filterMap lineCase).filter hasKeys).length
    ∧ (merge_with_train lines cls).total = (lines.filterMap lineCase).length
    ∧ (merge_with_train lines cls).unmatched
        = (enumerate1 lines).filterMap (unmatchedOf cls) := by
  have h := mergeFold_spec cls (enumerate1 lines) ⟨0, [], 0, []⟩
  rw [merge_with_train, h]
  have he : (enumerate1 lines).filterMap (fun p => lineCase p.2)
      = lines.filterMap lineCase :=
    enumFrom_filterMap_snd lineCase lines 1
  simp [he]

/-- Counterexample for C1 as stated: a single parsed record with no
`case_id` is counted (`total_cases = 1`) and recorded as unmatched, but the
output is empty — the record is dropped, so output count ≠ input count. -/
theorem merger_missing_key_dropped :
    (merge_with_train [CLine.ok ⟨none, some "K1", none, [], none⟩] []).total = 1
    ∧ (merge_with_train [CLine.ok ⟨none, some "K1", none, [], none⟩] []).output = []
    ∧ (merge_with_train [CLine.ok ⟨none, some "K1", none, [], none⟩] []).unmatched
        = [⟨"MISSING", "K1", 1, "Missing case_id or case_no in original file"⟩] := by
  refine ⟨rfl, rfl, rfl⟩

/-! ## Validator theorems -/

/-- Whether an `Except` result is a success (the run did not raise). -/
def exceptIsOk : Except String α → Bool
  | Except.ok _ => true
  | Except.error _ => false

/-- Whether a line parses as JSON and carries a `case_id` field — what the
validator's read loops require of every line they touch. -/
def goodLine : CLine → Bool
  | CLine.ok c => c.case_id.isSome
  | CLine.bad _ => false

/-- The ids the validator collects from a list of lines. -/
def idsOf (ls : List CLine) : List String :=
  ls.filterMap (fun l => (lineCase l).bind (fun c => c.case_id))

theorem readIds_ok (ls : List CLine) (h : ∀ l ∈ ls, goodLine l = true) :
    readIds ls = Except.ok (idsOf ls) := by
  induction ls with
  | nil => rfl
  | cons l ls ih =>
    cases l with
    | bad m =>
      have := h _ (List.mem_cons_self _ _)
      simp [goodLine] at this
    | ok c =>
      have hc := h _ (List.mem_cons_self _ _)
      rw [goodLine] at hc
      cases hid : c.case_id with
      | none => rw [hid] at hc; simp at hc
      | some cid =>
        have ht := ih (fun l hl => h l (List.mem_cons_of_mem _ hl))
        rw [readIds, hid, ht]
        simp [idsOf, lineCase, hid, Except.map]

theorem idsOf_ne_nil (l : CLine) (ls : List CLine) (h : goodLine l = true) :
    idsOf (l :: ls) ≠ [] := by
  cases l with
  | bad m => simp [goodLine] at h
  | ok c =>
    rw [goodLine] at h
    cases hid : c.case_id with
    | none => rw [hid] at h; simp at h
    | some cid => simp [idsOf, lineCase, hid]

theorem readIdsFiles_ok (fs : List SFile)
    (h : ∀ f ∈ fs, ∀ l ∈ f.lines, goodLine l = true) :
    readIdsFiles fs = Except.ok (fs.flatMap (fun f => idsOf f.lines)) := by
  induction fs with
  | nil => rfl
  | cons f fs ih =>
    rw [readIdsFiles, readIds_ok f.lines (h f (List.mem_cons_self _ _)),
      ih (fun g hg l hl => h g (List.mem_cons_of_mem _ hg) l hl)]
    simp

theorem mem_insertByName (key : α → String) (x a : α) (l : List α) :
    a ∈ insertByName key x l ↔ a = x ∨ a ∈ l := by
  induction l with
  | nil => simp [insertByName]
  | cons y ys ih =>
    rw [insertByName]
    by_cases h : strLeB (key x) (key y)
    · simp [h]
    · rw [if_neg h]
      simp only [List.mem_cons, ih]
      tauto

theorem mem_sortByName (key : α → String) (a : α) (l : List α) :
    a ∈ sortByName key l ↔ a ∈ l := by
  induction l with
  | nil => simp [sortByName]
  | cons x xs ih =>
    rw [sortByName, mem_insertByName]
    simp [ih]

/-- **C8** (amended): whenever the validator returns a verdict, that
verdict is exactly the AND of the four hard checks (count equality, no
duplicate id, no missing id, no extra id) — the two order checks are
computed only as warnings and never enter the verdict; and the validator
does return a verdict (running all checks) whenever every line parses with
a `case_id` and both the original file and the chunk set are nonempty.  On
an empty original (or empty chunk set) the final order check raises
`IndexError` and no verdict is returned. -/
theorem validator_verdict (origLines : List CLine) (files : List SFile) :
    (∀ r, validate_split origLines files = Except.ok r →
        r.allPassed = (r.countPass && r.dupPass && r.missingPass && r.extraPass))
    ∧ ((∀ l ∈ origLines, goodLine l = true) →
        (∀ f ∈ files, ∀ l ∈ f.lines, goodLine l = true) →
        origLines ≠ [] →
        (∃ f ∈ files, strEndsWith f.name ".jsonl" = true ∧ f.lines ≠ []) →
        exceptIsOk (validate_split origLines files) = true) := by
  constructor
  · intro r hr
    cases h1 : readIds origLines with
    | error e => simp only [validate_split, h1] at hr; exact absurd hr (by simp)
    | ok oids =>
      cases h2 : readIdsFiles (sortByName SFile.name
          (files.filter (fun f => strEndsWith f.name ".jsonl"))) with
      | error e => simp only [validate_split, h1, h2] at hr; exact absurd hr (by simp)
      | ok sids =>
        simp only [validate_split, h1, h2] at hr
        cases oids with
        | nil => simp at hr
        | cons o os =>
          cases sids with
          | nil => simp at hr
          | cons s ss =>
            simp only [Except.ok.injEq] at hr
            subst hr
            rfl
  · intro hgood hfgood hne hex
    have ho := readIds_ok origLines hgood
    have hfg : ∀ f ∈ sortByName SFile.name
        (files.filter (fun f => strEndsWith f.name ".jsonl")),
        ∀ l ∈ f.lines, goodLine l = true := by
      intro f hf l hl
      have hmem := (mem_sortByName SFile.name f _).1 hf
      exact hfgood f (List.mem_filter.mp hmem).1 l hl
    have hs := readIdsFiles_ok _ hfg
    have hone : idsOf origLines ≠ [] := by
      cases origLines with
      | nil => exact absurd rfl hne
      | cons a b => exact idsOf_ne_nil a b (hgood a (List.mem_cons_self _ _))
    have hsne : (sortByName SFile.name
        (files.filter (fun f => strEndsWith f.name ".jsonl"))).flatMap
          (fun f => idsOf f.lines) ≠ [] := by
      obtain ⟨f, hf, hend, hfl⟩ := hex
      intro hnil
      have hfin : f ∈ sortByName SFile.name
          (files.filter (fun f => strEndsWith f.name ".jsonl")) :=
        (mem_sortByName SFile.name f _).2 (List.mem_filter.mpr ⟨hf, hend⟩)
      have := (List.flatMap_eq_nil_iff.mp hnil) f hfin
      cases hfl2 : f.lines with
      | nil => exact hfl hfl2
      | cons a b =>
        rw [hfl2] at this
        exact idsOf_ne_nil a b (hfgood f hf a (by rw [hfl2]; exact List.mem_cons_self _ _)) this
    rw [validate_split, ho, hs]
    cases hoid : idsOf origLines with
    | nil => exact absurd hoid hone
    | cons o os =>
      cases hsid : (sortByName SFile.name
          (files.filter (fun f => strEndsWith f.name ".jsonl"))).flatMap
            (fun f => idsOf f.lines) with
      | nil => exact absurd hsid hsne
      | cons s ss => rfl

/-- Counterexample for C8 as stated: on an empty original file (and empty
chunk directory) all four hard checks hold, yet the validator aborts with
an `IndexError` in the order check and never returns a verdict. -/
theorem validator_empty_input_aborts :
    validate_split [] [] = Except.error "IndexError: list index out of range" := rfl

/-- Witness for C8 at a concrete input: a one-record original and a single
matching chunk file yield a verdict, and the all-pass verdict equals the
AND of the four hard checks. -/
theorem validator_verdict_witness :
    exceptIsOk (validate_split [CLine.ok ⟨some "w", some "x", none, [], none⟩]
        [⟨"chunk_01.jsonl", [CLine.ok ⟨some "w", some "x", none, [], none⟩]⟩]) = true
    ∧ VRes.allPassed ⟨true, true, true, true, true, true, true⟩
        = (true && true && true && true) :=
  ⟨(validator_verdict [CLine.ok ⟨some "w", some "x", none, [], none⟩]
      [⟨"chunk_01.jsonl", [CLine.ok ⟨some "w", some "x", none, [], none⟩]⟩]).2
      (by decide) (by decide) (by decide)
      ⟨⟨"chunk_01.jsonl", [CLine.ok ⟨some "w", some "x", none, [], none⟩]⟩,
        by decide, by decide, by decide⟩,
   (validator_verdict [CLine.ok ⟨some "w", some "x", none, [], none⟩]
      [⟨"chunk_01.jsonl", [CLine.ok ⟨some "w", some "x", none, [], none⟩]⟩]).1
      ⟨true, true, true, true, true, true, true⟩ (by rfl)⟩

theorem validator_c9_compute (cid n1 n2 : String) :
    validate_split
        [CLine.ok ⟨some cid, some n1, none, [], none⟩,
         CLine.ok ⟨some cid, some n2, none, [], none⟩]
        [⟨"split_01.jsonl",
          [CLine.ok ⟨some cid, some n1, none, [], none⟩,
           CLine.ok ⟨some cid, some n2, none, [], none⟩]⟩]
      = Except.ok ⟨true, false, true, true, true, true, false⟩ := by
  have hids : readIds [CLine.ok ⟨some cid, some n1, none, [], none⟩,
      CLine.ok ⟨some cid, some n2, none, [], none⟩] = Except.ok [cid, cid] := rfl
  simp only [validate_split, readIdsFiles, hids]
  simp [sortByName, insertByName, List.count_cons, VRes.mk.injEq]

/-- **C9**: the Split Validator identifies records by `case_id` alone: two
distinct records sharing a `case_id` but with different `case_no` (distinct
composite keys) make the duplicate check count that `case_id` twice and
fail the verdict; and the validator's result is identical to the one on a
truly duplicated record (same `case_id` and same `case_no`), so it cannot
distinguish the two situations. -/
theorem validator_keys_by_case_id (cid n1 n2 : String) (hne : n1 ≠ n2) :
    validate_split
        [CLine.ok ⟨some cid, some n1, none, [], none⟩,
         CLine.ok ⟨some cid, some n2, none, [], none⟩]
        [⟨"split_01.jsonl",
          [CLine.ok ⟨some cid, some n1, none, [], none⟩,
           CLine.ok ⟨some cid, some n2, none, [], none⟩]⟩]
      = Except.ok ⟨true, false, true, true, true, true, false⟩
    ∧ validate_split
        [CLine.ok ⟨some cid, some n1, none, [], none⟩,
         CLine.ok ⟨some cid, some n2, none, [], none⟩]
        [⟨"split_01.jsonl",
          [CLine.ok ⟨some cid, some n1, none, [], none⟩,
           CLine.ok ⟨some cid, some n2, none, [], none⟩]⟩]
      = validate_split
          [CLine.ok ⟨some cid, some n1, none, [], none⟩,
           CLine.ok ⟨some cid, some n1, none, [], none⟩]
          [⟨"split_01.jsonl",
            [CLine.ok ⟨some cid, some n1, none, [], none⟩,
             CLine.ok ⟨some cid, some n1, none, [], none⟩]⟩] := by
  refine ⟨validator_c9_compute cid n1 n2, ?_⟩
  rw [validator_c9_compute cid n1 n2, validator_c9_compute cid n1 n1]

/-- Witness for C9 at concrete identifiers. -/
theorem validator_keys_by_case_id_witness :
    validate_split
        [CLine.ok ⟨some "A", some "x", none, [], none⟩,
         CLine.ok ⟨some "A", some "y", none, [], none⟩]
        [⟨"split_01.jsonl",
          [CLine.ok ⟨some "A", some "x", none, [], none⟩,
           CLine.ok ⟨some "A", some "y", none, [], none⟩]⟩]
      = Except.ok ⟨true, false, true, true, true, true, false⟩ :=
  (validator_keys_by_case_id "A" "x" "y" (by decide)).1

/-! ## Error containment (C3) -/

/-- **C3** (amended): the Merger's two loops and the Age Extractor catch a
JSON parse failure per line, leave the state unchanged and continue; the
Split Validator and the Splitter do not — a malformed line aborts the
validator's run wherever it occurs, and aborts the splitter when it is the
first line of a chunk (the only line the splitter parses). -/
theorem per_line_error_containment :
    (∀ (cls : KVs) (st : MergeSt) (ln : Nat) (m : String),
        mergeStep cls st (ln, CLine.bad m) = st)
    ∧ (∀ (acc : List AgeResult) (m : String), processLine acc (CLine.bad m) = acc)
    ∧ (∀ (fname : String) (st : KVs × List DupRec) (ln : Nat) (m : String),
        processRLine fname st (ln, RLine.bad m) = st)
    ∧ (∀ (xs ys : List CLine) (m : String),
        exceptIsOk (readIds (xs ++ CLine.bad m :: ys)) = false)
    ∧ (∀ (m : String) (rest : List CLine) (n : Nat), 1 ≤ n → n ≤ rest.length + 1 →
        ((split_jsonl (CLine.bad m :: rest) n).2).isSome = true) := by
  refine ⟨fun cls st ln m => rfl, fun acc m => rfl, fun fname st ln m => rfl, ?_, ?_⟩
  · intro xs ys m
    induction xs with
    | nil => rfl
    | cons l ls ih =>
      cases l with
      | bad m2 => rfl
      | ok c =>
        rw [List.cons_append]
        cases hid : c.case_id with
        | none => simp [readIds, hid, exceptIsOk]
        | some cid =>
          simp only [readIds, hid]
          cases hrest : readIds (ls ++ CLine.bad m :: ys) with
          | error e => simp [Except.map, exceptIsOk]
          | ok v =>
            rw [hrest] at ih
            simp [exceptIsOk] at ih
  · intro m rest n h1 h2
    obtain ⟨k, rfl⟩ : ∃ k, n = k + 1 := ⟨n - 1, by omega⟩
    have hlpf : 1 ≤ (CLine.bad m :: rest).length / (k + 1) := by
      rw [Nat.one_le_div_iff (by omega)]
      simpa using h2
    have htk : ∀ (e : Nat), 1 ≤ e →
        (List.take e (CLine.bad m :: rest)).head? = some (CLine.bad m) := by
      intro e he
      cases e with
      | zero => omega
      | succ e2 => rfl
    have hhead : (chunkOf (CLine.bad m :: rest) (k + 1) 0).head? = some (CLine.bad m) := by
      rw [chunkOf]
      simp only [Nat.zero_mul, List.drop_zero, Nat.sub_zero, Nat.add_sub_cancel]
      by_cases hk : (0 : Nat) = k
      · rw [if_pos hk]
        exact htk _ (by simp)
      · rw [if_neg hk, Nat.one_mul]
        exact htk _ hlpf
    have hstep : splitStep (CLine.bad m :: rest) (k + 1) ([], none) 0
        = ([(chunkName 1, chunkOf (CLine.bad m :: rest) (k + 1) 0)], some m) := by
      rw [splitStep_none_eq _ _ _ _ rfl, hhead]
      simp [mkChunkFile]
    rw [split_jsonl, List.range_succ_eq_map, List.foldl_cons, hstep,
      splitStep_error _ _ _ _ m rfl]
    rfl

/-- Counterexample for C3 as stated: a malformed line is NOT contained in
the Split Validator (the run aborts with the parse error) nor in the
Splitter (the chunk verification line re-raises the parse error). -/
theorem validator_aborts_on_malformed_line :
    validate_split [CLine.bad "Expecting value: line 1 column 1 (char 0)"] []
        = Except.error "Expecting value: line 1 column 1 (char 0)"
    ∧ (split_jsonl [CLine.bad "Expecting value: line 1 column 1 (char 0)"] 1).2
        = some "Expecting value: line 1 column 1 (char 0)" := by
  exact ⟨rfl, by decide⟩

/-- Witness for C3 at concrete inputs. -/
theorem per_line_error_containment_witness :
    mergeStep [] ⟨0, [], 0, []⟩ (1, CLine.bad "bad json") = ⟨0, [], 0, []⟩
    ∧ exceptIsOk (readIds [CLine.ok ⟨some "a", some "b", none, [], none⟩,
        CLine.bad "bad json"]) = false
    ∧ ((split_jsonl [CLine.bad "bad json",
        CLine.ok ⟨some "a", some "b", none, [], none⟩] 2).2).isSome = true :=
  ⟨per_line_error_containment.1 [] ⟨0, [], 0, []⟩ 1 "bad json",
   per_line_error_containment.2.2.2.1 [CLine.ok ⟨some "a", some "b", none, [], none⟩]
     [] "bad json",
   per_line_error_containment.2.2.2.2 "bad json"
     [CLine.ok ⟨some "a", some "b", none, [], none⟩] 2 (by decide) (by decide)⟩
